import Mathlib

/-!
# Verification of the TF-IDF pipeline (`src/tfidf.rs`)

A shallow embedding of the Rust TF-IDF calculator into Lean 4.

Modelling conventions:
* Rust `String` text is modelled as `List Char`; produced terms are Lean `String`s
  (built with `String.mk` from their character lists).
* `std::collections::HashMap<String, V>` is modelled as an association list
  `List (String × V)` with no duplicate keys, written `Table V`.  Iteration order of a
  `HashMap` is unspecified in Rust, so no claim below depends on entry order.
* Rust's Unicode character classes (`char::is_alphanumeric`, `char::is_whitespace`,
  `str::to_lowercase`) are modelled by Lean's `Char.isAlphanum`, `Char.isWhitespace`
  and `Char.toLower`, their ASCII restrictions; `to_lowercase` is applied
  character-by-character (on ASCII the two agree).
* `f64` scores are modelled as real numbers, with `f64::ln` as `Real.log`.
  On the values this program produces (`freq * ln(n/df)` with `1 ≤ df ≤ n`) the real
  model and `f64` agree on the sign/zero/ordering facts proved here.
-/

namespace Tfidf

/-- `const LINES_PER_DOCUMENT: usize = 1000;` -/
def LINES_PER_DOCUMENT : Nat := 1000

/-- Association-list model of `HashMap<String, α>`. -/
abbrev Table (α : Type) := List (String × α)

/-- `HashMap` lookup (`map.get(key)`). -/
def lookup {α : Type} : Table α → String → Option α
  | [], _ => none
  | (k, v) :: rest, key => if k = key then some v else lookup rest key

/-- `*map.entry(key).or_insert(0) += 1;` — increment the entry, inserting `0` first
if the key is absent. -/
def bump : Table Nat → String → Table Nat
  | [], key => [(key, 1)]
  | (k, v) :: rest, key =>
      if k = key then (k, v + 1) :: rest else (k, v) :: bump rest key

/-- The word normalization inside `tokenize`:
`word.to_lowercase().chars().filter(|c| c.is_alphanumeric()).collect::<String>()`. -/
def normalizeWord (w : List Char) : List Char :=
  (w.map Char.toLower).filter Char.isAlphanum

/-- Accumulator-style model of `str::split_whitespace`: splits at every maximal run
of whitespace, yielding the (non-empty) words in order.  `acc` holds the current
word's characters in reverse. -/
def splitWsAux : List Char → List Char → List (List Char)
  | [], acc => if acc.isEmpty then [] else [acc.reverse]
  | c :: cs, acc =>
      if c.isWhitespace then
        if acc.isEmpty then splitWsAux cs [] else acc.reverse :: splitWsAux cs []
      else splitWsAux cs (c :: acc)

/-- `text.split_whitespace()`. -/
def splitWhitespace (text : List Char) : List (List Char) :=
  splitWsAux text []

/-- `TfidfCalculator::tokenize` (src/tfidf.rs:24-32): split on whitespace, lowercase,
keep alphanumeric characters, drop words that became empty. -/
def tokenize (text : List Char) : List String :=
  (((splitWhitespace text).map fun w => String.mk (normalizeWord w)).filter
    fun w => !w.isEmpty)

/-- The `TfidfCalculator` struct (src/tfidf.rs:8-13). -/
structure TfidfCalculator where
  document_frequency : Table Nat
  term_frequencies : List (Table Nat)
  n_documents : Nat
  deriving Repr, DecidableEq

/-- `TfidfCalculator::new` (src/tfidf.rs:16-22). -/
def TfidfCalculator.new : TfidfCalculator :=
  { document_frequency := [], term_frequencies := [], n_documents := 0 }

/-- The per-document `term_freq` table built by the first loop of
`process_document`: one `bump` per token occurrence, starting from the empty map. -/
def buildTermFreq (tokens : List String) : Table Nat :=
  tokens.foldl bump []

/-- `TfidfCalculator::process_document` (src/tfidf.rs:34-50).  `seen_terms` (a
`HashMap<String, bool>` used as a set) is modelled by `tokens.dedup`, the distinct
tokens; the order in which its keys are visited does not affect the resulting map. -/
def TfidfCalculator.process_document (c : TfidfCalculator) (text : List Char) :
    TfidfCalculator :=
  let tokens := tokenize text
  let term_freq := buildTermFreq tokens
  let seen_terms := tokens.dedup
  { document_frequency := seen_terms.foldl bump c.document_frequency
    term_frequencies := c.term_frequencies ++ [term_freq]
    n_documents := c.n_documents + 1 }

/-- A calculator built from `new()` by one `process_document` call per document,
in order — the only way `main` ever constructs one. -/
def build (docs : List (List Char)) : TfidfCalculator :=
  docs.foldl TfidfCalculator.process_document TfidfCalculator.new

/-- The score `tf * idf` computed at src/tfidf.rs:60-62:
`tf = freq as f64; idf = (n_documents as f64 / df as f64).ln(); tfidf = tf * idf`. -/
noncomputable def score (freq df n : Nat) : ℝ :=
  (freq : ℝ) * Real.log ((n : ℝ) / (df : ℝ))

/-- The body of the inner loop of `calculate_tfidf` (src/tfidf.rs:58-64): given the
final `document_frequency` table and `n_documents`, turn one `(term, freq)` entry
into its `(term, tfidf)` entry, or skip it if the `document_frequency` lookup
misses (`if let Some(&df) = ...`). -/
noncomputable def scoreEntry (dfm : Table Nat) (n : Nat) (p : String × Nat) :
    Option (String × ℝ) :=
  match lookup dfm p.1 with
  | some df => some (p.1, score p.2 df n)
  | none => none

/-- `TfidfCalculator::calculate_tfidf` (src/tfidf.rs:52-71). -/
noncomputable def TfidfCalculator.calculate_tfidf (c : TfidfCalculator) :
    List (Table ℝ) :=
  c.term_frequencies.map fun doc_tf =>
    doc_tf.filterMap (scoreEntry c.document_frequency c.n_documents)

/-- The chunking loop of `main` (src/tfidf.rs:86-108): accumulate lines (each
followed by `'\n'`) into `current_document`, emit it every `LINES_PER_DOCUMENT`
lines, and emit any non-empty remainder at the end. -/
def mainLoop : List (List Char) → List Char → Nat → List (List Char)
  | [], current_document, _ =>
      if current_document.isEmpty then [] else [current_document]
  | line :: rest, current_document, line_count =>
      let current_document := current_document ++ line ++ ['\n']
      let line_count := line_count + 1
      if line_count = LINES_PER_DOCUMENT then
        current_document :: mainLoop rest [] 0
      else
        mainLoop rest current_document line_count

/-- The documents `main` feeds to `process_document`, given the input lines. -/
def chunkDocuments (lines : List (List Char)) : List (List Char) :=
  mainLoop lines [] 0

/-- The calculator state after `main`'s reading loop: every chunked document
ingested in order. -/
def runPipeline (lines : List (List Char)) : TfidfCalculator :=
  build (chunkDocuments lines)

/-- Spec-level chunking: greedy groups of `n` consecutive elements (the last group
may be shorter).  Used to compare `mainLoop` with the spec's description. -/
def chunksOf {α : Type} (n : Nat) : List α → List (List α)
  | [] => []
  | x :: xs => (x :: xs).take n :: chunksOf n (xs.drop (n - 1))
  termination_by l => l.length
  decreasing_by
    simp only [List.length_cons, List.length_drop]
    omega

/-- How `main`'s loop actually joins a chunk's lines: each line followed by `'\n'`. -/
def joinLines (lines : List (List Char)) : List Char :=
  (lines.map fun l => l ++ ['\n']).flatten

/-- Spec-level joining: lines joined with a newline separator (no trailing one). -/
def joinSep : List (List Char) → List Char
  | [] => []
  | [l] => l
  | l :: rest => l ++ '\n' :: joinSep rest

/-- Does `t` appear in table `tbl` with count ≥ 1?  (The spec's "contains the term
at least once".) -/
def appearsB (tbl : Table Nat) (t : String) : Bool :=
  match lookup tbl t with
  | some v => decide (1 ≤ v)
  | none => false

/-- The value `document_frequency` associates to `t` (0 when absent). -/
def dfValue (m : Table Nat) (t : String) : Nat :=
  (lookup m t).getD 0

/-- The descending comparison of src/tfidf.rs:122:
`scores.sort_by(|a, b| b.1.partial_cmp(a.1).unwrap())` — `a` precedes `b`
when `b`'s score is at most `a`'s. -/
noncomputable def scoreDesc (a b : String × ℝ) : Bool :=
  decide (b.2 ≤ a.2)

/-- The sort of src/tfidf.rs:120-122 (sorting the entry list, not the map). -/
noncomputable def sortScores (l : Table ℝ) : Table ℝ :=
  l.mergeSort scoreDesc

/-- The top-10 extraction of src/tfidf.rs:125 (`scores.iter().take(10)` after the
descending sort). -/
noncomputable def topK (l : Table ℝ) : Table ℝ :=
  (sortScores l).take 10

/-- The corpus-statistics invariant maintained by `process_document`:
the document count matches the number of per-document tables; every
`document_frequency` value counts exactly the per-document tables containing the
term with count ≥ 1; a term is absent from `document_frequency` exactly when no
per-document table contains it; and all stored term counts are ≥ 1. -/
structure Inv (c : TfidfCalculator) : Prop where
  len : c.term_frequencies.length = c.n_documents
  df_eq : ∀ t, dfValue c.document_frequency t =
    (c.term_frequencies.filter fun tbl => appearsB tbl t).length
  df_none : ∀ t, lookup c.document_frequency t = none ↔
    ∀ tbl ∈ c.term_frequencies, appearsB tbl t = false
  tf_pos : ∀ tbl ∈ c.term_frequencies, ∀ t v, lookup tbl t = some v → 1 ≤ v

end Tfidf

namespace Tfidf

/-! ## Tokenizer properties (C4) -/

/-- `Char.toLower` never yields an uppercase letter. -/
theorem isUpper_toLower (c : Char) : (Char.toLower c).isUpper = false := by
  unfold Char.toLower
  by_cases h : c.toNat ≥ 65 ∧ c.toNat ≤ 90
  · simp only [if_pos h]
    obtain ⟨h1, h2⟩ := h
    set n := c.toNat with hn
    interval_cases n <;> decide
  · simp only [if_neg h]
    simp only [Char.isUpper]
    rw [Bool.and_eq_false_iff]
    rcases Nat.lt_or_ge c.toNat 65 with hlt | hge
    · left
      simp only [decide_eq_false_iff_not]
      intro hc
      have h3 : (65 : Nat) ≤ c.val.toNat := UInt32.le_toNat_of_le (by decide) hc
      have h4 : c.toNat = c.val.toNat := rfl
      omega
    · right
      simp only [decide_eq_false_iff_not]
      intro hc
      have h2 : c.val.toNat ≤ (90 : Nat) := UInt32.toNat_le_of_le (by decide) hc
      exact h ⟨hge, h2⟩

/-- Every token produced by `tokenize` is a non-empty string of alphanumeric,
non-uppercase characters. -/
theorem tokenize_tokens (text : List Char) (tok : String) (htok : tok ∈ tokenize text) :
    tok.data ≠ [] ∧ ∀ c ∈ tok.data, c.isAlphanum = true ∧ c.isUpper = false := by
  unfold tokenize at htok
  obtain ⟨hmem, hne⟩ := List.mem_filter.mp htok
  obtain ⟨w, hw, hwtok⟩ := List.mem_map.mp hmem
  subst hwtok
  constructor
  · intro hd
    have hdata : (String.mk (normalizeWord w)).data = normalizeWord w := rfl
    rw [hdata] at hd
    rw [hd] at hne
    revert hne
    decide
  · intro c hc
    have hdata : (String.mk (normalizeWord w)).data = normalizeWord w := rfl
    rw [hdata] at hc
    unfold normalizeWord at hc
    obtain ⟨hcm, halnum⟩ := List.mem_filter.mp hc
    obtain ⟨x, _, hx⟩ := List.mem_map.mp hcm
    refine ⟨halnum, ?_⟩
    rw [← hx]
    exact isUpper_toLower x

/-- C4: `tokenize` splits on whitespace runs (leading/trailing whitespace and
all-punctuation words produce nothing), lowercases, keeps only alphanumeric
characters, preserves word order and duplicates; every token is non-empty,
lowercase (no uppercase letter) and alphanumeric, and
`tokenize "Hello, World! 123" = ["hello", "world", "123"]`. -/
theorem claim_C4 :
    (∀ (text : List Char) (tok : String), tok ∈ tokenize text →
        tok.data ≠ [] ∧ ∀ c ∈ tok.data, c.isAlphanum = true ∧ c.isUpper = false) ∧
    tokenize "Hello, World! 123".data = ["hello", "world", "123"] ∧
    tokenize "  A   a!  ".data = ["a", "a"] ∧
    tokenize [] = [] :=
  ⟨tokenize_tokens, by decide, by decide, rfl⟩

/-- Witness for C4 at a concrete input: `"ab1"` is a token of `"  Ab1!  "` and
enjoys the stated properties. -/
theorem claim_C4_witness :
    "ab1" ∈ tokenize "  Ab1!  ".data ∧
    ("ab1".data ≠ [] ∧ ∀ c ∈ "ab1".data, c.isAlphanum = true ∧ c.isUpper = false) :=
  ⟨by decide, claim_C4.1 "  Ab1!  ".data "ab1" (by decide)⟩

end Tfidf

namespace Tfidf

/-! ## Table lemmas: `bump`, `buildTermFreq`, `document_frequency` folds -/

/-- Effect of one `bump` on lookups. -/
theorem lookup_bump (m : Table Nat) (k key : String) :
    lookup (bump m k) key =
      if key = k then some (dfValue m k + 1) else lookup m key := by
  induction m with
  | nil =>
    by_cases h : key = k
    · subst h
      simp [bump, lookup, dfValue]
    · simp [bump, lookup, dfValue, h, Ne.symm h]
  | cons p rest ih =>
    obtain ⟨k1, v1⟩ := p
    by_cases h1 : k1 = k
    · subst h1
      by_cases h2 : key = k1
      · subst h2
        simp [bump, lookup, dfValue]
      · simp [bump, lookup, dfValue, h2, Ne.symm h2]
    · by_cases h2 : k1 = key
      · subst h2
        simp [bump, lookup, dfValue, h1, Ne.symm h1]
      · simp [bump, lookup, dfValue, h1, h2, ih]

theorem dfValue_bump (m : Table Nat) (k key : String) :
    dfValue (bump m k) key =
      if key = k then dfValue m k + 1 else dfValue m key := by
  unfold dfValue
  rw [lookup_bump]
  by_cases h : key = k <;> simp [h, dfValue]

theorem dfValue_foldl_bump (ts : List String) (m : Table Nat) (t : String) :
    dfValue (ts.foldl bump m) t = dfValue m t + ts.count t := by
  induction ts generalizing m with
  | nil => simp
  | cons h rest ih =>
    rw [List.foldl_cons, ih, dfValue_bump, List.count_cons]
    by_cases ht : t = h
    · simp [ht]
      omega
    · simp [ht, Ne.symm ht]

theorem lookup_foldl_bump_none (ts : List String) (m : Table Nat) (t : String) :
    lookup (ts.foldl bump m) t = none ↔ lookup m t = none ∧ t ∉ ts := by
  induction ts generalizing m with
  | nil => simp
  | cons h rest ih =>
    simp only [List.foldl_cons, ih, lookup_bump, List.mem_cons]
    by_cases ht : t = h
    · simp [ht]
    · simp [ht]

theorem dfValue_buildTermFreq (ts : List String) (t : String) :
    dfValue (buildTermFreq ts) t = ts.count t := by
  unfold buildTermFreq
  rw [dfValue_foldl_bump]
  simp [dfValue, lookup]

theorem lookup_buildTermFreq_none (ts : List String) (t : String) :
    lookup (buildTermFreq ts) t = none ↔ t ∉ ts := by
  unfold buildTermFreq
  rw [lookup_foldl_bump_none]
  simp [lookup]

theorem lookup_buildTermFreq_some (ts : List String) (t : String) (v : Nat)
    (h : lookup (buildTermFreq ts) t = some v) : v = ts.count t ∧ 1 ≤ v := by
  have hv : dfValue (buildTermFreq ts) t = v := by simp [dfValue, h]
  rw [dfValue_buildTermFreq] at hv
  have hmem : t ∈ ts := by
    by_contra hmemn
    rw [← lookup_buildTermFreq_none ts t] at hmemn
    rw [hmemn] at h
    exact Option.noConfusion h
  have hpos : 0 < ts.count t := List.count_pos_iff.mpr hmem
  omega

end Tfidf

namespace Tfidf

/-! ## The corpus invariant (claims C2, C3, and support for C1, C10) -/

/-- A term appears (count ≥ 1) in the table built for a document iff it is one of
the document's tokens. -/
theorem appearsB_buildTermFreq (ts : List String) (t : String) :
    appearsB (buildTermFreq ts) t = true ↔ t ∈ ts := by
  unfold appearsB
  cases hl : lookup (buildTermFreq ts) t with
  | none =>
    have hn := (lookup_buildTermFreq_none ts t).mp hl
    simp [hn]
  | some v =>
    obtain ⟨hc, hv⟩ := lookup_buildTermFreq_some ts t v hl
    have hmem : t ∈ ts := by
      have hpos : 0 < ts.count t := by omega
      exact List.count_pos_iff.mp hpos
    simp [hv, hmem]

/-- `dedup` holds each member exactly once. -/
theorem count_dedup (ts : List String) (t : String) :
    ts.dedup.count t = if t ∈ ts then 1 else 0 := by
  by_cases h : t ∈ ts
  · rw [if_pos h]
    exact List.count_eq_one_of_mem (List.nodup_dedup ts) (List.mem_dedup.mpr h)
  · rw [if_neg h, List.count_eq_zero]
    simp [List.mem_dedup, h]

/-- The invariant holds for `new()`. -/
theorem inv_new : Inv TfidfCalculator.new := by
  refine ⟨rfl, ?_, ?_, ?_⟩
  · intro t
    simp [TfidfCalculator.new, dfValue, lookup]
  · intro t
    simp [TfidfCalculator.new, lookup]
  · intro tbl htbl
    simp [TfidfCalculator.new] at htbl

/-- `process_document` preserves the invariant. -/
theorem inv_process (c : TfidfCalculator) (h : Inv c) (text : List Char) :
    Inv (c.process_document text) := by
  constructor
  · show (c.term_frequencies ++ [buildTermFreq (tokenize text)]).length = c.n_documents + 1
    simp [h.len]
  · intro t
    show dfValue ((tokenize text).dedup.foldl bump c.document_frequency) t =
      ((c.term_frequencies ++ [buildTermFreq (tokenize text)]).filter
        fun tbl => appearsB tbl t).length
    rw [dfValue_foldl_bump, h.df_eq t, count_dedup, List.filter_append,
      List.length_append]
    by_cases hm : t ∈ tokenize text
    · simp [hm, (appearsB_buildTermFreq (tokenize text) t).mpr hm]
    · have happ : appearsB (buildTermFreq (tokenize text)) t = false := by
        rw [← Bool.not_eq_true]
        exact fun hc => hm ((appearsB_buildTermFreq (tokenize text) t).mp hc)
      simp [hm, happ]
  · intro t
    simp only [TfidfCalculator.process_document]
    rw [lookup_foldl_bump_none, h.df_none t]
    rw [List.forall_mem_append, List.forall_mem_singleton]
    have hiff : t ∉ (tokenize text).dedup ↔
        appearsB (buildTermFreq (tokenize text)) t = false := by
      rw [List.mem_dedup, ← Bool.not_eq_true, not_iff_not,
        appearsB_buildTermFreq]
    tauto
  · intro tbl htbl t v hv
    have htbl' : tbl ∈ c.term_frequencies ++ [buildTermFreq (tokenize text)] := htbl
    rcases List.mem_append.mp htbl' with h1 | h2
    · exact h.tf_pos tbl h1 t v hv
    · rw [List.mem_singleton] at h2
      subst h2
      exact (lookup_buildTermFreq_some (tokenize text) t v hv).2

/-- The invariant is preserved by any ingestion sequence. -/
theorem inv_foldl (docs : List (List Char)) (c : TfidfCalculator) (h : Inv c) :
    Inv (docs.foldl TfidfCalculator.process_document c) := by
  induction docs generalizing c with
  | nil => exact h
  | cons d rest ih => exact ih _ (inv_process c h d)

/-- Every calculator reachable from `new()` satisfies the invariant. -/
theorem inv_build (docs : List (List Char)) : Inv (build docs) :=
  inv_foldl docs TfidfCalculator.new inv_new

/-- Under the invariant, every stored document frequency is between 1 and
`n_documents`. -/
theorem df_bounds (c : TfidfCalculator) (h : Inv c) (t : String) (d : Nat)
    (hd : lookup c.document_frequency t = some d) :
    1 ≤ d ∧ d ≤ c.n_documents := by
  have hdv : dfValue c.document_frequency t = d := by simp [dfValue, hd]
  rw [h.df_eq t] at hdv
  constructor
  · by_contra hlt
    have hd0 : d = 0 := by omega
    subst hd0
    have hfe : (c.term_frequencies.filter fun tbl => appearsB tbl t) = [] :=
      List.eq_nil_of_length_eq_zero hdv
    have hall : ∀ tbl ∈ c.term_frequencies, appearsB tbl t = false := by
      intro tbl htbl
      have := List.filter_eq_nil_iff.mp hfe tbl htbl
      simpa using this
    have := (h.df_none t).mpr hall
    rw [this] at hd
    exact Option.noConfusion hd
  · calc d = (c.term_frequencies.filter fun tbl => appearsB tbl t).length := hdv.symm
      _ ≤ c.term_frequencies.length := List.length_filter_le _ _
      _ = c.n_documents := h.len

/-- Under the invariant, every term of a per-document table is present in
`document_frequency`. -/
theorem tf_key_in_df (c : TfidfCalculator) (h : Inv c) (tbl : Table Nat)
    (htbl : tbl ∈ c.term_frequencies) (t : String)
    (hne : lookup tbl t ≠ none) :
    lookup c.document_frequency t ≠ none := by
  intro hnone
  obtain ⟨v, hv⟩ := Option.ne_none_iff_exists'.mp hne
  have hpos := h.tf_pos tbl htbl t v hv
  have happ : appearsB tbl t = true := by
    unfold appearsB
    rw [hv]
    simp [hpos]
  have hfalse := (h.df_none t).mp hnone tbl htbl
  rw [hfalse] at happ
  exact Bool.noConfusion happ

end Tfidf

namespace Tfidf

/-! ## Scoring lemmas and claims C2, C3 -/

/-- When every key of `tbl` is present in `dfm`, no entry is skipped: the
`filterMap` of `calculate_tfidf` is a plain `map` (the `None` branch is dead). -/
theorem filterMap_scoreEntry_eq_map (dfm : Table Nat) (n : Nat) (tbl : Table Nat)
    (hk : ∀ k, lookup tbl k ≠ none → lookup dfm k ≠ none) :
    tbl.filterMap (scoreEntry dfm n) =
      tbl.map fun p => (p.1, score p.2 (dfValue dfm p.1) n) := by
  induction tbl with
  | nil => rfl
  | cons p rest ih =>
    obtain ⟨k, v⟩ := p
    have hkhead : lookup dfm k ≠ none := by
      apply hk
      simp [lookup]
    obtain ⟨d, hd⟩ := Option.ne_none_iff_exists'.mp hkhead
    have hrest : ∀ k', lookup rest k' ≠ none → lookup dfm k' ≠ none := by
      intro k' hk'
      apply hk
      by_cases he : k = k'
      · simp [lookup, he]
      · simp only [lookup, if_neg he]
        exact hk'
    simp [List.filterMap_cons, scoreEntry, hd, ih hrest, dfValue]

/-- Lookup in a table whose entries were mapped value-wise. -/
theorem lookup_map_score (tbl : Table Nat) (f : String → Nat → ℝ) (t : String) :
    lookup (tbl.map fun p => (p.1, f p.1 p.2)) t = (lookup tbl t).map (f t) := by
  induction tbl with
  | nil => rfl
  | cons p rest ih =>
    obtain ⟨k, v⟩ := p
    by_cases he : k = t
    · subst he
      simp [lookup]
    · simp [lookup, he, ih]

/-- Any score found in a `calculate_tfidf` output table is `score freq d n` for
some frequency and the looked-up document frequency of that term. -/
theorem lookup_filterMap_scoreEntry (dfm : Table Nat) (n : Nat) (tbl : Table Nat)
    (t : String) (s : ℝ)
    (hs : lookup (tbl.filterMap (scoreEntry dfm n)) t = some s) :
    ∃ freq d, lookup dfm t = some d ∧ s = score freq d n := by
  induction tbl with
  | nil => exact absurd hs (by simp [lookup])
  | cons p rest ih =>
    obtain ⟨k, v⟩ := p
    rw [List.filterMap_cons] at hs
    cases hd : lookup dfm k with
    | none =>
      rw [scoreEntry, hd] at hs
      exact ih hs
    | some d =>
      rw [scoreEntry, hd] at hs
      by_cases he : k = t
      · subst he
        rw [lookup, if_pos rfl] at hs
        injection hs with hs
        exact ⟨v, d, hd, hs.symm⟩
      · rw [lookup, if_neg he] at hs
        exact ih hs

/-- C2: after any sequence of `process_document` calls starting from `new()`,
`term_frequencies` has exactly `n_documents` entries, and every stored document
frequency is at most `n_documents` and equals the number of per-document tables
containing the term with count ≥ 1. -/
theorem claim_C2 (docs : List (List Char)) :
    (build docs).term_frequencies.length = (build docs).n_documents ∧
    ∀ t v, lookup (build docs).document_frequency t = some v →
      v ≤ (build docs).n_documents ∧
      v = ((build docs).term_frequencies.filter fun tbl => appearsB tbl t).length := by
  have h := inv_build docs
  refine ⟨h.len, fun t v hv => ⟨(df_bounds _ h t v hv).2, ?_⟩⟩
  have hdv : dfValue (build docs).document_frequency t = v := by simp [dfValue, hv]
  rw [h.df_eq t] at hdv
  exact hdv.symm

/-- Witness for C2 on a two-document corpus in which `"b"` occurs in both
documents. -/
theorem claim_C2_witness :
    lookup (build ["a b".data, "b c".data]).document_frequency "b" = some 2 ∧
    (2 ≤ (build ["a b".data, "b c".data]).n_documents ∧
     2 = ((build ["a b".data, "b c".data]).term_frequencies.filter
        fun tbl => appearsB tbl "b").length) :=
  ⟨by decide, (claim_C2 ["a b".data, "b c".data]).2 "b" 2 (by decide)⟩

/-- C3: every term occurring in a per-document table is present in
`document_frequency` with value ≥ 1; consequently the `if let Some(&df)` in
`calculate_tfidf` never takes the `None` branch — the `filterMap` is a total
`map` — and the divisor `df` is never zero. -/
theorem claim_C3 (docs : List (List Char)) :
    (∀ tbl ∈ (build docs).term_frequencies, ∀ t v, lookup tbl t = some v →
      ∃ df, lookup (build docs).document_frequency t = some df ∧ 1 ≤ df) ∧
    (build docs).calculate_tfidf =
      (build docs).term_frequencies.map fun tbl =>
        tbl.map fun p =>
          (p.1, score p.2 (dfValue (build docs).document_frequency p.1)
            (build docs).n_documents) := by
  have h := inv_build docs
  constructor
  · intro tbl htbl t v hv
    have hne : lookup tbl t ≠ none := by simp [hv]
    have hdfne := tf_key_in_df _ h tbl htbl t hne
    obtain ⟨d, hd⟩ := Option.ne_none_iff_exists'.mp hdfne
    exact ⟨d, hd, (df_bounds _ h t d hd).1⟩
  · unfold TfidfCalculator.calculate_tfidf
    apply List.map_congr_left
    intro tbl htbl
    exact filterMap_scoreEntry_eq_map _ _ tbl
      fun k hk => tf_key_in_df _ h tbl htbl k hk

/-- Witness for C3 on a one-document corpus: the term `"a"` of the document's
table is in `document_frequency` with value ≥ 1. -/
theorem claim_C3_witness :
    ([("a", 2)] ∈ (build ["a a".data]).term_frequencies ∧
     lookup [("a", 2)] "a" = some 2) ∧
    ∃ df, lookup (build ["a a".data]).document_frequency "a" = some df ∧ 1 ≤ df :=
  ⟨⟨by decide, by decide⟩,
   (claim_C3 ["a a".data]).1 [("a", 2)] (by decide) "a" 2 (by decide)⟩

end Tfidf

namespace Tfidf

/-! ## Claims C1, C7, C8, C9, C10 -/

/-- C1: on a fully-ingested corpus, `calculate_tfidf` returns one score table per
document in document order; each `(term, freq)` entry of a document's
term-frequency table is mapped to `freq * ln(n_documents / df)` where `df` is the
term's entry in `document_frequency`; terms absent from a document's
term-frequency table are absent from its score table. -/
theorem claim_C1 (docs : List (List Char)) :
    (build docs).calculate_tfidf.length = (build docs).n_documents ∧
    ∀ (i : Nat) (tbl : Table Nat), (build docs).term_frequencies[i]? = some tbl →
      ∃ out, (build docs).calculate_tfidf[i]? = some out ∧
        (∀ t freq, lookup tbl t = some freq →
          ∃ df, lookup (build docs).document_frequency t = some df ∧
            lookup out t = some ((freq : ℝ) *
              Real.log (((build docs).n_documents : ℝ) / (df : ℝ)))) ∧
        (∀ t, lookup tbl t = none → lookup out t = none) := by
  have h := inv_build docs
  constructor
  · unfold TfidfCalculator.calculate_tfidf
    rw [List.length_map, h.len]
  · intro i tbl htbl
    have htblmem : tbl ∈ (build docs).term_frequencies := List.getElem?_mem htbl
    have hk : ∀ k, lookup tbl k ≠ none →
        lookup (build docs).document_frequency k ≠ none :=
      fun k hk => tf_key_in_df _ h tbl htblmem k hk
    have heq := filterMap_scoreEntry_eq_map (build docs).document_frequency
      (build docs).n_documents tbl hk
    refine ⟨tbl.filterMap (scoreEntry (build docs).document_frequency
      (build docs).n_documents), ?_, ?_, ?_⟩
    · unfold TfidfCalculator.calculate_tfidf
      rw [List.getElem?_map, htbl]
      rfl
    · intro t freq hfreq
      have hne : lookup tbl t ≠ none := by simp [hfreq]
      obtain ⟨d, hd⟩ := Option.ne_none_iff_exists'.mp (hk t hne)
      refine ⟨d, hd, ?_⟩
      rw [heq,
        lookup_map_score tbl
          (fun k v => score v (dfValue (build docs).document_frequency k)
            (build docs).n_documents) t,
        hfreq]
      simp [score, dfValue, hd]
    · intro t ht
      rw [heq,
        lookup_map_score tbl
          (fun k v => score v (dfValue (build docs).document_frequency k)
            (build docs).n_documents) t,
        ht]
      rfl

/-- Witness for C1 on a two-document corpus: document 0's entry for `"a"`
(frequency 2) is scored `2 * ln(2 / 1)`, and `"c"` (absent) stays absent. -/
theorem claim_C1_witness :
    ((build ["a a".data, "b".data]).term_frequencies[0]? = some [("a", 2)] ∧
     lookup [("a", 2)] "a" = some 2 ∧ lookup [("a", 2)] "c" = none) ∧
    ∃ out, (build ["a a".data, "b".data]).calculate_tfidf[0]? = some out ∧
      (∃ df, lookup (build ["a a".data, "b".data]).document_frequency "a" = some df ∧
        lookup out "a" = some ((2 : ℝ) *
          Real.log (((build ["a a".data, "b".data]).n_documents : ℝ) / (df : ℝ)))) ∧
      lookup out "c" = none := by
  have h := (claim_C1 ["a a".data, "b".data]).2 0 [("a", 2)] (by decide)
  obtain ⟨out, hout, hsome, hnone⟩ := h
  exact ⟨⟨by decide, by decide, by decide⟩,
    ⟨out, hout, hsome "a" 2 (by decide), hnone "c" (by decide)⟩⟩

/-- C7: with zero documents ingested, scoring is a no-op — `calculate_tfidf`
returns the empty sequence (no division is ever attempted) — and the summary
counts (`n_documents`, number of distinct terms) are both 0.  An empty input
file produces exactly this state. -/
theorem claim_C7 :
    chunkDocuments [] = [] ∧
    runPipeline [] = TfidfCalculator.new ∧
    TfidfCalculator.new.calculate_tfidf = [] ∧
    (runPipeline []).n_documents = 0 ∧
    (runPipeline []).document_frequency.length = 0 :=
  ⟨rfl, rfl, rfl, rfl, rfl⟩

/-- A term occurring in every document (`df = n`) scores 0: `ln(n/n) = 0`
(also degenerately at `n = 0`, where the real model gives `ln 0 = 0`). -/
theorem score_df_eq_n (freq n : Nat) : score freq n n = 0 := by
  unfold score
  rcases Nat.eq_zero_or_pos n with h | h
  · subst h
    simp
  · rw [div_self (by exact_mod_cast h.ne')]
    simp

/-- C8: a term whose document frequency equals `n_documents` has idf 0 and
TF-IDF score exactly 0 in every document, whatever its in-document frequency. -/
theorem claim_C8 (c : TfidfCalculator) (term : String)
    (h : lookup c.document_frequency term = some c.n_documents) :
    ∀ out ∈ c.calculate_tfidf, ∀ s, lookup out term = some s → s = 0 := by
  intro out hout s hs
  unfold TfidfCalculator.calculate_tfidf at hout
  obtain ⟨tbl, htbl, rfl⟩ := List.mem_map.mp hout
  obtain ⟨freq, d, hd, hsc⟩ := lookup_filterMap_scoreEntry _ _ _ _ _ hs
  rw [h] at hd
  injection hd with hd
  rw [hsc, ← hd]
  exact score_df_eq_n freq c.n_documents

/-- Witness for C8: in a two-document corpus where `"a"` occurs in both
documents, its score in the first document is 0. -/
theorem claim_C8_witness :
    (lookup (build ["a".data, "a".data]).document_frequency "a" =
      some (build ["a".data, "a".data]).n_documents) ∧
    score 1 2 2 = 0 := by
  have hmem : [("a", score 1 2 2)] ∈ (build ["a".data, "a".data]).calculate_tfidf := by
    show [("a", score 1 2 2)] ∈
      [[("a", score 1 2 2)], [("a", score 1 2 2)]]
    exact List.mem_cons_self _ _
  exact ⟨by decide,
    claim_C8 (build ["a".data, "a".data]) "a" (by decide)
      [("a", score 1 2 2)] hmem (score 1 2 2) rfl⟩

/-- C9: for a fixed document frequency `df ≥ 1` (every stored document frequency
is ≥ 1, by C3) and fixed `n_documents > df` — so idf > 0 — the TF-IDF score is
strictly increasing in the in-document count. -/
theorem claim_C9 (df n c1 c2 : Nat) (hdf : 1 ≤ df) (hn : df < n) (hc : c1 < c2) :
    score c1 df n < score c2 df n := by
  unfold score
  have hdpos : (0 : ℝ) < df := by exact_mod_cast hdf
  have hlog : 0 < Real.log ((n : ℝ) / df) := by
    apply Real.log_pos
    rw [one_lt_div hdpos]
    exact_mod_cast hn
  exact mul_lt_mul_of_pos_right (by exact_mod_cast hc) hlog

/-- Witness for C9 at `df = 1`, `n = 2`, counts 0 < 1. -/
theorem claim_C9_witness :
    (1 ≤ 1 ∧ 1 < 2 ∧ 0 < 1) ∧ score 0 1 2 < score 1 1 2 :=
  ⟨⟨le_refl 1, by omega, by omega⟩,
   claim_C9 1 2 0 1 (le_refl 1) (by omega) (by omega)⟩

/-- C10: every score produced from a reachable corpus is non-negative (in the real
model of `f64`: `1 ≤ df ≤ n` gives `ln(n/df) ≥ 0`, and `tf ≥ 0`), and any two
produced scores are comparable — the totality that
`partial_cmp(..).unwrap()` needs. -/
theorem claim_C10 (docs : List (List Char)) :
    ∀ out ∈ (build docs).calculate_tfidf, ∀ p ∈ out,
      0 ≤ p.2 ∧ ∀ q ∈ out, p.2 ≤ q.2 ∨ q.2 ≤ p.2 := by
  have h := inv_build docs
  intro out hout p hp
  refine ⟨?_, fun q _ => le_total p.2 q.2⟩
  unfold TfidfCalculator.calculate_tfidf at hout
  obtain ⟨tbl, htbl, rfl⟩ := List.mem_map.mp hout
  obtain ⟨a, ha, hga⟩ := List.mem_filterMap.mp hp
  unfold scoreEntry at hga
  cases hd : lookup (build docs).document_frequency a.1 with
  | none =>
    rw [hd] at hga
    exact absurd hga (by simp)
  | some d =>
    rw [hd] at hga
    injection hga with hga
    obtain ⟨h1, h2⟩ := df_bounds _ h a.1 d hd
    rw [← hga]
    show 0 ≤ score a.2 d (build docs).n_documents
    unfold score
    apply mul_nonneg (Nat.cast_nonneg _)
    apply Real.log_nonneg
    rw [one_le_div (by exact_mod_cast h1 : (0 : ℝ) < d)]
    exact_mod_cast h2

/-- Witness for C10 on a one-document corpus. -/
theorem claim_C10_witness :
    ([("a", score 1 1 1)] ∈ (build ["a".data]).calculate_tfidf ∧
     ("a", score 1 1 1) ∈ ([("a", score 1 1 1)] : Table ℝ)) ∧
    0 ≤ (("a", score 1 1 1) : String × ℝ).2 := by
  have hmem : [("a", score 1 1 1)] ∈ (build ["a".data]).calculate_tfidf := by
    show [("a", score 1 1 1)] ∈ [[("a", score 1 1 1)]]
    exact List.mem_cons_self _ _
  have hp : ("a", score 1 1 1) ∈ ([("a", score 1 1 1)] : Table ℝ) :=
    List.mem_cons_self _ _
  exact ⟨⟨hmem, hp⟩,
    (claim_C10 ["a".data] [("a", score 1 1 1)] hmem ("a", score 1 1 1) hp).1⟩

end Tfidf

namespace Tfidf

/-! ## Claim C6: Top-K ranking -/

/-- C6: the reported top-k sequence (k = 10) is non-increasing in score, its
length is `min 10 (number of entries of the score table)`, and each reported
entry is an entry of the score table (the sort operates on a separate entry
list; the table itself is not modified — in this functional model `topK` merely
reads `scores`). -/
theorem claim_C6 (scores : Table ℝ) :
    List.Pairwise (fun a b => b.2 ≤ a.2) (topK scores) ∧
    (topK scores).length = min 10 scores.length ∧
    ∀ p ∈ topK scores, p ∈ scores := by
  have htrans : ∀ (a b c : String × ℝ),
      scoreDesc a b → scoreDesc b c → scoreDesc a c := by
    intro a b c hab hbc
    simp only [scoreDesc, decide_eq_true_eq] at *
    exact le_trans hbc hab
  have htotal : ∀ (a b : String × ℝ), scoreDesc a b || scoreDesc b a := by
    intro a b
    simp only [scoreDesc]
    rcases le_total a.2 b.2 with h | h <;> simp [h]
  have hsorted := List.sorted_mergeSort htrans htotal scores
  refine ⟨?_, ?_, ?_⟩
  · have hsub : List.Sublist (topK scores) (sortScores scores) :=
      List.take_sublist 10 _
    have hpw := List.Pairwise.sublist hsub hsorted
    exact hpw.imp fun hab => by
      simpa only [scoreDesc, decide_eq_true_eq] using hab
  · unfold topK sortScores
    rw [List.length_take, List.length_mergeSort]
  · intro p hp
    unfold topK sortScores at hp
    exact List.mem_mergeSort.mp (List.mem_of_mem_take hp)

/-- Witness for C6 on a singleton score table. -/
theorem claim_C6_witness :
    ("a", (0 : ℝ)) ∈ topK [("a", (0 : ℝ))] ∧
    ("a", (0 : ℝ)) ∈ ([("a", (0 : ℝ))] : Table ℝ) := by
  have hsingle : topK [("a", (0 : ℝ))] = [("a", (0 : ℝ))] := by
    unfold topK sortScores
    rw [List.mergeSort_singleton]
    rfl
  have hp : ("a", (0 : ℝ)) ∈ topK [("a", (0 : ℝ))] := by
    rw [hsingle]
    exact List.mem_cons_self _ _
  exact ⟨hp, (claim_C6 [("a", (0 : ℝ))]).2.2 ("a", (0 : ℝ)) hp⟩

end Tfidf


namespace Tfidf

/-! ## Claim C5: document chunking -/

theorem joinLines_append (a b : List (List Char)) :
    joinLines (a ++ b) = joinLines a ++ joinLines b := by
  simp [joinLines]

theorem joinLines_singleton (l : List Char) : joinLines [l] = l ++ ['\n'] := by
  simp [joinLines]

theorem joinLines_eq_nil_iff (ls : List (List Char)) :
    joinLines ls = [] ↔ ls = [] := by
  cases ls with
  | nil => simp [joinLines]
  | cons l rest => simp [joinLines]

theorem chunksOf_cons_of_le {α : Type} (n : Nat) (hn : 1 ≤ n) (x : α) (xs : List α) :
    chunksOf n (x :: xs) = (x :: xs).take n :: chunksOf n ((x :: xs).drop n) := by
  obtain ⟨m, rfl⟩ : ∃ m, n = m + 1 := ⟨n - 1, by omega⟩
  rw [chunksOf]
  simp

theorem chunksOf_eq_nil_iff {α : Type} (n : Nat) (l : List α) :
    chunksOf n l = [] ↔ l = [] := by
  cases l with
  | nil => simp [chunksOf]
  | cons x xs =>
    rw [chunksOf]
    simp

theorem chunksOf_append_full {α : Type} (n : Nat) (hn : 1 ≤ n) (p rest : List α)
    (hlen : p.length = n) :
    chunksOf n (p ++ rest) = p :: chunksOf n rest := by
  have hpne : p ≠ [] := by
    intro h
    subst h
    simp at hlen
    omega
  obtain ⟨x, xs, rfl⟩ := List.exists_cons_of_ne_nil hpne
  rw [List.cons_append, chunksOf_cons_of_le n hn, ← List.cons_append,
    ← hlen, List.take_left, List.drop_left]

theorem mainLoop_eq (ls : List (List Char)) :
    ∀ pending : List (List Char), pending.length < LINES_PER_DOCUMENT →
    mainLoop ls (joinLines pending) pending.length =
      (chunksOf LINES_PER_DOCUMENT (pending ++ ls)).map joinLines := by
  induction ls with
  | nil =>
    intro pending hp
    rw [List.append_nil, mainLoop]
    by_cases hpe : pending = []
    · subst hpe
      simp [joinLines, chunksOf]
    · have hne : joinLines pending ≠ [] := fun h => hpe ((joinLines_eq_nil_iff pending).mp h)
      rw [if_neg (by simpa [List.isEmpty_iff] using hne)]
      obtain ⟨x, xs, rfl⟩ := List.exists_cons_of_ne_nil hpe
      rw [chunksOf]
      have h1 : (x :: xs).take LINES_PER_DOCUMENT = x :: xs :=
        List.take_of_length_le (by omega)
      have h2 : xs.drop (LINES_PER_DOCUMENT - 1) = [] := by
        apply List.drop_eq_nil_of_le
        simp only [List.length_cons] at hp
        omega
      rw [h1, h2]
      simp [chunksOf]
  | cons l rest ih =>
    intro pending hp
    rw [mainLoop]
    have hcur : joinLines pending ++ l ++ ['\n'] = joinLines (pending ++ [l]) := by
      rw [joinLines_append, joinLines_singleton, List.append_assoc]
    by_cases hfull : pending.length + 1 = LINES_PER_DOCUMENT
    · rw [if_pos hfull, hcur]
      have hrest : mainLoop rest [] 0 =
          (chunksOf LINES_PER_DOCUMENT rest).map joinLines := by
        have h0 := ih [] (by simp [LINES_PER_DOCUMENT])
        simpa using h0
      rw [hrest]
      have hplen : (pending ++ [l]).length = LINES_PER_DOCUMENT := by
        simp only [List.length_append, List.length_cons, List.length_nil]
        omega
      have hsplit : pending ++ l :: rest = (pending ++ [l]) ++ rest := by
        simp
      rw [hsplit, chunksOf_append_full LINES_PER_DOCUMENT (by simp [LINES_PER_DOCUMENT])
        (pending ++ [l]) rest hplen, List.map_cons]
    · rw [if_neg hfull]
      have hlen1 : pending.length + 1 = (pending ++ [l]).length := by simp
      have hlt : (pending ++ [l]).length < LINES_PER_DOCUMENT := by
        simp only [List.length_append, List.length_cons, List.length_nil]
        omega
      have := ih (pending ++ [l]) hlt
      rw [hcur, hlen1, this]
      congr 1
      simp

theorem chunkDocuments_eq (lines : List (List Char)) :
    chunkDocuments lines = (chunksOf LINES_PER_DOCUMENT lines).map joinLines := by
  have h := mainLoop_eq lines [] (by simp [LINES_PER_DOCUMENT])
  simpa [chunkDocuments, joinLines] using h

theorem chunksOf_flatten {α : Type} (n : Nat) (hn : 1 ≤ n) :
    ∀ l : List α, (chunksOf n l).flatten = l
  | [] => by simp [chunksOf]
  | x :: xs => by
    rw [chunksOf, List.flatten_cons, chunksOf_flatten n hn (xs.drop (n - 1))]
    obtain ⟨m, rfl⟩ : ∃ m, n = m + 1 := ⟨n - 1, by omega⟩
    rw [List.take_succ_cons]
    simp [List.take_append_drop]
  termination_by l => l.length
  decreasing_by
    simp only [List.length_cons, List.length_drop]
    omega

theorem chunksOf_sizes {α : Type} (n : Nat) (hn : 1 ≤ n) :
    ∀ l : List α, ∀ ch ∈ chunksOf n l, 1 ≤ ch.length ∧ ch.length ≤ n
  | [] => by simp [chunksOf]
  | x :: xs => by
    rw [chunksOf]
    intro ch hch
    rcases List.mem_cons.mp hch with rfl | hmem
    · rw [List.length_take]
      constructor <;> [skip; omega]
      simp only [List.length_cons]
      omega
    · exact chunksOf_sizes n hn (xs.drop (n - 1)) ch hmem
  termination_by l => l.length
  decreasing_by
    simp only [List.length_cons, List.length_drop]
    omega

theorem chunksOf_dropLast {α : Type} (n : Nat) (hn : 1 ≤ n) :
    ∀ l : List α, ∀ ch ∈ (chunksOf n l).dropLast, ch.length = n
  | [] => by simp [chunksOf]
  | x :: xs => by
    rw [chunksOf]
    cases hcs : chunksOf n (xs.drop (n - 1)) with
    | nil => simp
    | cons c2 cs2 =>
      intro ch hch
      rw [List.dropLast_cons₂] at hch
      rcases List.mem_cons.mp hch with rfl | hmem
      · have hdne : xs.drop (n - 1) ≠ [] := by
          intro h
          rw [h] at hcs
          simp [chunksOf] at hcs
        have hxlen : n - 1 < xs.length := by
          by_contra hc
          exact hdne (List.drop_eq_nil_of_le (by omega))
        rw [List.length_take]
        simp only [List.length_cons]
        omega
      · rw [← hcs] at hmem
        exact chunksOf_dropLast n hn (xs.drop (n - 1)) ch hmem
  termination_by l => l.length
  decreasing_by
    simp only [List.length_cons, List.length_drop]
    omega

theorem chunksOf_1000_length {α : Type} :
    ∀ l : List α, (chunksOf 1000 l).length = (l.length + 999) / 1000
  | [] => by simp [chunksOf]
  | x :: xs => by
    rw [chunksOf, List.length_cons, chunksOf_1000_length (xs.drop (1000 - 1))]
    simp only [List.length_drop, List.length_cons]
    omega
  termination_by l => l.length
  decreasing_by
    simp only [List.length_cons, List.length_drop]
    omega

theorem splitWsAux_append_ws (c : Char) (hc : c.isWhitespace = true) :
    ∀ (s : List Char) (acc : List Char),
      splitWsAux (s ++ [c]) acc = splitWsAux s acc
  | [], acc => by
    simp only [List.nil_append, splitWsAux, hc, if_true]
    by_cases ha : acc.isEmpty
    · simp [ha, splitWsAux]
    · simp [ha, splitWsAux]
  | x :: s, acc => by
    simp only [List.cons_append, splitWsAux]
    by_cases hx : x.isWhitespace
    · by_cases ha : acc.isEmpty <;>
        simp [hx, ha, splitWsAux_append_ws c hc s]
    · simp [hx, splitWsAux_append_ws c hc s]

theorem tokenize_append_newline (s : List Char) :
    tokenize (s ++ ['\n']) = tokenize s := by
  unfold tokenize splitWhitespace
  rw [splitWsAux_append_ws '\n' rfl s []]

theorem joinLines_eq_joinSep :
    ∀ ch : List (List Char), ch ≠ [] → joinLines ch = joinSep ch ++ ['\n']
  | [l], _ => by simp [joinLines, joinSep]
  | l :: m :: rest, _ => by
    have ih := joinLines_eq_joinSep (m :: rest) (by simp)
    have h1 : joinLines (l :: m :: rest) = (l ++ ['\n']) ++ joinLines (m :: rest) := by
      simp [joinLines]
    rw [h1, ih]
    show (l ++ ['\n']) ++ (joinSep (m :: rest) ++ ['\n']) =
      (l ++ '\n' :: joinSep (m :: rest)) ++ ['\n']
    simp

theorem tokenize_joinLines (ch : List (List Char)) (h : ch ≠ []) :
    tokenize (joinLines ch) = tokenize (joinSep ch) := by
  rw [joinLines_eq_joinSep ch h, tokenize_append_newline]

/-- C5: the chunking loop of `main` groups the input lines into documents of
exactly `LINES_PER_DOCUMENT` (1000) lines, any final group of 1 to 999 leftover
lines forms one last document, an empty remainder produces no extra document
(the chunks partition the lines in order, every chunk has 1..1000 lines, and all
but the last have exactly 1000); each document is the chunk's lines joined with
newline separators (plus one trailing newline, which tokenization ignores:
tokenizing the loop's document equals tokenizing the separator-joined lines);
a 2500-line input yields exactly 3 documents. -/
theorem claim_C5 (lines : List (List Char)) :
    chunkDocuments lines = (chunksOf LINES_PER_DOCUMENT lines).map joinLines ∧
    (chunksOf LINES_PER_DOCUMENT lines).flatten = lines ∧
    (∀ ch ∈ chunksOf LINES_PER_DOCUMENT lines,
      1 ≤ ch.length ∧ ch.length ≤ LINES_PER_DOCUMENT) ∧
    (∀ ch ∈ (chunksOf LINES_PER_DOCUMENT lines).dropLast,
      ch.length = LINES_PER_DOCUMENT) ∧
    (∀ ch : List (List Char), ch ≠ [] →
      tokenize (joinLines ch) = tokenize (joinSep ch)) ∧
    (lines.length = 2500 → (chunkDocuments lines).length = 3) := by
  have hn : 1 ≤ LINES_PER_DOCUMENT := by simp [LINES_PER_DOCUMENT]
  refine ⟨chunkDocuments_eq lines, chunksOf_flatten _ hn lines,
    chunksOf_sizes _ hn lines, chunksOf_dropLast _ hn lines,
    tokenize_joinLines, ?_⟩
  intro h2500
  rw [chunkDocuments_eq lines, List.length_map]
  have h1000 : LINES_PER_DOCUMENT = 1000 := rfl
  rw [h1000, chunksOf_1000_length lines, h2500]

/-- Witness for C5: a concrete 2500-line input produces exactly 3 documents. -/
theorem claim_C5_witness :
    (List.replicate 2500 ([] : List Char)).length = 2500 ∧
    (chunkDocuments (List.replicate 2500 ([] : List Char))).length = 3 :=
  ⟨List.length_replicate 2500 [],
   (claim_C5 (List.replicate 2500 [])).2.2.2.2.2 (List.length_replicate 2500 [])⟩

end Tfidf
